import Mathlib

/-!
Shallow embedding of the meddoc-query-engine indexing and hierarchical
retrieval subsystem.

Sources embedded:
* `src/app/hierarchical_rag/modules/indexer.py` (`DocumentProcessor.process_page`)
* `src/app/core/indexing.py` (`PineconeIndexer.chunked`, `PineconeIndexer.index_documents`)
* `src/app/core/retreival.py` (`PineconeRetriever.retrieve`)
* `src/app/core/prompting.py` (`PromptRunner.generate`)
* `src/app/hierarchical_rag/modules/retreiver.py` (`HierarchicalRetriever`,
  `ScoreReranker`, `PromptBasedExpander`)

Modelling conventions:
* Similarity scores are only ever compared (never added or averaged), so the
  Python floats are modelled by `Int`: only the order structure matters.
* Python dict access `d.get(k, default)` on optional fields is modelled with
  `Option` and `Option.getD`.
* Python's stable `sorted(xs, key=f, reverse=True)` is modelled by
  `List.insertionSort` with the relation `a ≼ b ↔ f b ≤ f a`: an element is
  inserted before the first element whose key is not larger, which is the
  unique stable descending order on keys.
* Exceptions are modelled with `Except`; a Python function that cannot raise
  is a total Lean function.
-/

namespace MedDoc

/-- Metadata mapping of a vector-store match, as read by the retriever
(`match["metadata"]`): `page_id`, `chunk`, `pdf_id` are looked up with `.get`
and may be absent.  A Python `page_id` of `None` is `none`; the integer `0` is
falsy in Python, which matters for `_get_page_ids`. -/
structure Metadata where
  page_id : Option Int
  chunk : Option String
  pdf_id : Option Int
  deriving DecidableEq, Repr

/-- A similarity match returned by `PineconeRetriever.retrieve`
(`{score, metadata, ...}`), plus the transient `question` annotation that
`_get_chunks` writes into the dict (`m["question"] = question`). -/
structure RMatch where
  score : Option Int
  metadata : Metadata
  question : Option String
  deriving DecidableEq, Repr

/-- `match.get("score", 0)` -/
def scoreD (m : RMatch) : Int := m.score.getD 0

/-- The final projection built by `get_context_chunks` for each surviving
match: `{chunk, page_id, pdf_id, score}`. -/
structure RetrievedChunk where
  chunk : Option String
  page_id : Option Int
  pdf_id : Option Int
  score : Option Int
  deriving DecidableEq, Repr

/-- The order relation used by Python's `sorted(xs, key=f, reverse=True)`:
`a` is placed before `b` exactly when `f b ≤ f a`. -/
def descBy (f : α → Int) (a b : α) : Prop := f b ≤ f a

instance (f : α → Int) : DecidableRel (descBy f) :=
  fun a b => inferInstanceAs (Decidable (f b ≤ f a))

instance (f : α → Int) : IsTotal α (descBy f) := ⟨fun a b => le_total (f b) (f a)⟩

instance (f : α → Int) : IsTrans α (descBy f) :=
  ⟨fun _ _ _ h h' => le_trans h' h⟩

/-- Python's `sorted(xs, key=f, reverse=True)`: the stable descending sort. -/
def sortDesc (f : α → Int) (l : List α) : List α := List.insertionSort (descBy f) l

theorem sortDesc_perm (f : α → Int) (l : List α) : (sortDesc f l).Perm l :=
  List.perm_insertionSort _ l

theorem sortDesc_pairwise (f : α → Int) (l : List α) :
    (sortDesc f l).Pairwise (descBy f) :=
  List.sorted_insertionSort _ l

/-- Stability of `orderedInsert`: restricted to any single key value `s`, the
inserted element goes first iff it has that key, and the rest keep order. -/
theorem filter_key_orderedInsert (f : α → Int) (s : Int) (x : α) (l : List α) :
    (List.orderedInsert (descBy f) x l).filter (fun a => f a == s) =
      if f x = s then x :: l.filter (fun a => f a == s)
      else l.filter (fun a => f a == s) := by
  induction l with
  | nil =>
    by_cases hx : f x = s <;>
      simp [List.orderedInsert, List.filter_cons, beq_iff_eq, hx]
  | cons y t ih =>
    by_cases hr : descBy f x y
    · by_cases hx : f x = s <;>
        simp [List.orderedInsert, if_pos hr, List.filter_cons, beq_iff_eq, hx]
    · have hlt : f x < f y := by
        simpa [descBy, not_le] using hr
      by_cases hy : f y = s
      · have hx : ¬ f x = s := by omega
        simp [List.orderedInsert, if_neg hr, List.filter_cons, beq_iff_eq, hy, hx, ih]
      · by_cases hx : f x = s <;>
          simp [List.orderedInsert, if_neg hr, List.filter_cons, beq_iff_eq, hy, hx, ih]

/-- Stability of the descending sort: elements sharing one key value keep
their encounter order (their filtered subsequence is unchanged). -/
theorem filter_key_sortDesc (f : α → Int) (s : Int) (l : List α) :
    (sortDesc f l).filter (fun a => f a == s) = l.filter (fun a => f a == s) := by
  induction l with
  | nil => rfl
  | cons x t ih =>
    by_cases hx : f x = s <;>
      simp [sortDesc, List.insertionSort, filter_key_orderedInsert,
        hx, List.filter_cons, beq_iff_eq, ← ih]

/-! ## Hierarchical retriever (`src/app/hierarchical_rag/modules/retreiver.py`)

The vector-store queries are abstracted as function parameters
`qret`/`cret : String → Nat → Option Int → List RMatch` standing for
`self.question_retriever.retrieve(q, top_k, filter)` and
`self.chunk_retriever.retrieve(q, top_k, filter)`; the filter
`{"page_id": page_id}` is `some page_id`, no filter is `none`. -/

/-- One iteration of the loop body of `HierarchicalRetriever._get_page_ids`
over `page_scores` (a Python dict, modelled as an insertion-ordered
association list):

    page_id = match.get("metadata", {}).get("page_id")
    if page_id:
        score = match.get("score", 0)
        if page_id not in page_scores or score > page_scores[page_id]:
            page_scores[page_id] = score

A missing or falsy (`0`) page_id leaves the dict untouched.  A new key is
appended at the end (Python dicts preserve insertion order); an update keeps
the key's position. -/
def stepScores (ps : List (Int × Int)) (m : RMatch) : List (Int × Int) :=
  match m.metadata.page_id with
  | none => ps
  | some p =>
    if p = 0 then ps
    else
      match ps.lookup p with
      | none => ps ++ [(p, scoreD m)]
      | some old =>
        if old < scoreD m then
          ps.map (fun kv => if kv.1 = p then (p, scoreD m) else kv)
        else ps

/-- The `page_scores` dict built by `_get_page_ids` from the question-index
matches. -/
def pageScores (ms : List RMatch) : List (Int × Int) := ms.foldl stepScores []

/-- `HierarchicalRetriever._get_page_ids`, applied to the matches returned by
the question retriever: `sorted(page_scores, key=page_scores.get,
reverse=True)` sorts the dict keys by their retained score, descending. -/
def getPageIds (ms : List RMatch) : List Int :=
  (sortDesc Prod.snd (pageScores ms)).map Prod.fst

/-- `HierarchicalRetriever._get_chunks`: for each question and each of its
scoped page ids, query the chunk retriever with `top_k=chunks_per_page` and
filter `{"page_id": page_id}`, annotate each match with the question, and
flatten in loop order. -/
def getChunks (cret : String → Nat → Option Int → List RMatch)
    (qtp : List (String × List Int)) (chunksPerPage : Nat) : List RMatch :=
  qtp.flatMap fun qp =>
    qp.2.flatMap fun p =>
      (cret qp.1 chunksPerPage (some p)).map fun m => { m with question := some qp.1 }

/-- The list of `(query, top_k, filter)` calls `_get_chunks` issues against
the chunk retriever, in order. -/
def getChunksCalls (qtp : List (String × List Int)) (chunksPerPage : Nat) :
    List (String × Nat × Option Int) :=
  qtp.flatMap fun qp => qp.2.map fun p => (qp.1, chunksPerPage, some p)

/-- `ScoreReranker.rerank` (and the identical
`HierarchicalRetriever.rerank_top_chunks`):
`sorted(results, key=lambda x: x.get("score", 0), reverse=True)[:top_n]`. -/
def rerank (results : List RMatch) (topN : Nat) : List RMatch :=
  (sortDesc scoreD results).take topN

/-- The final projection of `get_context_chunks`:
`{"chunk": ..., "page_id": ..., "pdf_id": ..., "score": ...}`. -/
def projectMatch (m : RMatch) : RetrievedChunk :=
  ⟨m.metadata.chunk, m.metadata.page_id, m.metadata.pdf_id, m.score⟩

/-- Stages 2–4 of `get_context_chunks`, applied to a given sub-question list:
the dict comprehension `{q: self._get_page_ids(q) for q in questions}`
(duplicate questions collapse to their first occurrence, with the same
deterministic value), then `_get_chunks`, then the reranker, then the
projection.  Defaults: `top_k=5` pages per question, `chunks_per_page=3`. -/
def contextChunksFromQuestions (qret cret : String → Nat → Option Int → List RMatch)
    (questions : List String) (topN : Nat) : List RetrievedChunk :=
  let qtp := questions.eraseDups.map fun q => (q, getPageIds (qret q 5 none))
  let allChunks := getChunks cret qtp 3
  (rerank allChunks topN).map projectMatch

/-- `HierarchicalRetriever.get_context_chunks`: stage 1 binds
`questions = self.expander.expand(query)`, and stages 2–4 run on that list
exactly as bound — there is no fallback replacing an empty expansion. -/
def getContextChunks (expand : String → List String)
    (qret cret : String → Nat → Option Int → List RMatch)
    (query : String) (topN : Nat) : List RetrievedChunk :=
  contextChunksFromQuestions qret cret (expand query) topN

/-! ### Association-list facts about the `page_scores` dict -/

/-- The step applied by one match to the retained score of one page:
a hit on page `p` raises the retained value to its max with the new score. -/
def maxStep (p : Int) (acc : Option Int) (m : RMatch) : Option Int :=
  if m.metadata.page_id = some p then
    some (acc.elim (scoreD m) fun a => max a (scoreD m))
  else acc

/-- Highest score retained for page `p`, starting from `o`. -/
def maxScoreAux (p : Int) (o : Option Int) (ms : List RMatch) : Option Int :=
  ms.foldl (maxStep p) o

/-- The highest score any match in `ms` carries for metadata page id `p`
(`none` when no match mentions `p`). -/
def maxScore? (ms : List RMatch) (p : Int) : Option Int := maxScoreAux p none ms

theorem lookup_cons_eq (k v : Int) (t : List (Int × Int)) (p : Int) (h : p = k) :
    List.lookup p ((k, v) :: t) = some v := by
  have hb : (p == k) = true := beq_iff_eq.mpr h
  simp [List.lookup_cons, hb]

theorem lookup_cons_ne (k v : Int) (t : List (Int × Int)) (p : Int) (h : p ≠ k) :
    List.lookup p ((k, v) :: t) = List.lookup p t := by
  have hb : (p == k) = false := beq_eq_false_iff_ne.mpr h
  simp [List.lookup_cons, hb]

theorem lookup_eq_none_iff (ps : List (Int × Int)) (p : Int) :
    ps.lookup p = none ↔ p ∉ ps.map Prod.fst := by
  induction ps with
  | nil => simp
  | cons kv t ih =>
    obtain ⟨k, v⟩ := kv
    by_cases h : p = k
    · rw [lookup_cons_eq _ _ _ _ h]
      simp [h]
    · rw [lookup_cons_ne _ _ _ _ h]
      simp [h, ih]

theorem lookup_append_right (ps qs : List (Int × Int)) (p : Int)
    (h : ps.lookup p = none) : (ps ++ qs).lookup p = qs.lookup p := by
  induction ps with
  | nil => simp
  | cons kv t ih =>
    obtain ⟨k, v⟩ := kv
    by_cases hk : p = k
    · rw [lookup_cons_eq _ _ _ _ hk] at h
      exact absurd h (by simp)
    · rw [lookup_cons_ne _ _ _ _ hk] at h
      rw [List.cons_append, lookup_cons_ne _ _ _ _ hk]
      exact ih h

theorem lookup_append_left (ps qs : List (Int × Int)) (p : Int) (v : Int)
    (h : ps.lookup p = some v) : (ps ++ qs).lookup p = some v := by
  induction ps with
  | nil => simp at h
  | cons kv t ih =>
    obtain ⟨k, w⟩ := kv
    by_cases hk : p = k
    · rw [lookup_cons_eq _ _ _ _ hk] at h
      rw [List.cons_append, lookup_cons_eq _ _ _ _ hk]
      exact h
    · rw [lookup_cons_ne _ _ _ _ hk] at h
      rw [List.cons_append, lookup_cons_ne _ _ _ _ hk]
      exact ih h

theorem lookup_update_self (ps : List (Int × Int)) (p s : Int) :
    (ps.map fun kv => if kv.1 = p then (p, s) else kv).lookup p =
      (ps.lookup p).map fun _ => s := by
  induction ps with
  | nil => simp
  | cons kv t ih =>
    obtain ⟨k, v⟩ := kv
    simp only [List.map_cons]
    by_cases hk : k = p
    · subst hk
      rw [show (if ((k, v) : Int × Int).1 = k then (k, s) else (k, v)) = (k, s)
          from if_pos rfl]
      rw [lookup_cons_eq _ _ _ _ rfl, lookup_cons_eq _ _ _ _ rfl]
      rfl
    · have hk' : p ≠ k := fun h => hk h.symm
      rw [show (if ((k, v) : Int × Int).1 = p then (p, s) else (k, v)) = (k, v)
          from if_neg hk]
      rw [lookup_cons_ne _ _ _ _ hk', lookup_cons_ne _ _ _ _ hk']
      exact ih

theorem lookup_update_other (ps : List (Int × Int)) (p q s : Int) (h : q ≠ p) :
    (ps.map fun kv => if kv.1 = p then (p, s) else kv).lookup q = ps.lookup q := by
  induction ps with
  | nil => simp
  | cons kv t ih =>
    obtain ⟨k, v⟩ := kv
    simp only [List.map_cons]
    by_cases hk : k = p
    · subst hk
      rw [show (if ((k, v) : Int × Int).1 = k then (k, s) else (k, v)) = (k, s)
          from if_pos rfl]
      rw [lookup_cons_ne _ _ _ _ h, lookup_cons_ne _ _ _ _ h]
      exact ih
    · rw [show (if ((k, v) : Int × Int).1 = p then (p, s) else (k, v)) = (k, v)
          from if_neg hk]
      by_cases hq : q = k
      · rw [lookup_cons_eq _ _ _ _ hq, lookup_cons_eq _ _ _ _ hq]
      · rw [lookup_cons_ne _ _ _ _ hq, lookup_cons_ne _ _ _ _ hq]
        exact ih

/-- One step of the `page_scores` loop, observed through `lookup p` for a
genuine (nonzero) page id `p`: it is exactly the max-retention step. -/
theorem lookup_stepScores (p : Int) (hp : p ≠ 0) (ps : List (Int × Int)) (m : RMatch) :
    (stepScores ps m).lookup p = maxStep p (ps.lookup p) m := by
  cases hpid : m.metadata.page_id with
  | none => simp [stepScores, maxStep, hpid]
  | some p' =>
    by_cases hz : p' = 0
    · subst hz
      simp [stepScores, maxStep, hpid, Ne.symm hp]
    · by_cases hpp : p' = p
      · subst hpp
        cases hold : ps.lookup p' with
        | none =>
          have hstep : stepScores ps m = ps ++ [(p', scoreD m)] := by
            simp [stepScores, hpid, hz, hold]
          rw [hstep, lookup_append_right _ _ _ hold, lookup_cons_eq _ _ _ _ rfl]
          simp [maxStep, hpid]
        | some old =>
          by_cases hlt : old < scoreD m
          · have hstep : stepScores ps m
                = ps.map fun kv => if kv.1 = p' then (p', scoreD m) else kv := by
              simp [stepScores, hpid, hz, hold, hlt]
            rw [hstep, lookup_update_self, hold]
            simp [maxStep, hpid, Option.elim, max_eq_right (le_of_lt hlt)]
          · have hstep : stepScores ps m = ps := by
              simp [stepScores, hpid, hz, hold, hlt]
            rw [hstep, hold]
            simp [maxStep, hpid, Option.elim, max_eq_left (not_lt.mp hlt)]
      · have hne : m.metadata.page_id ≠ some p := by simp [hpid, hpp]
        have hmax : maxStep p (ps.lookup p) m = ps.lookup p := by
          simp [maxStep, hne]
        rw [hmax]
        cases hold : ps.lookup p' with
        | none =>
          have hstep : stepScores ps m = ps ++ [(p', scoreD m)] := by
            simp [stepScores, hpid, hz, hold]
          rw [hstep]
          cases hpl : ps.lookup p with
          | none =>
            rw [lookup_append_right _ _ _ hpl,
              lookup_cons_ne _ _ _ _ (fun h => hpp h.symm)]
            simp
          | some v => rw [lookup_append_left _ _ _ _ hpl]
        | some old =>
          by_cases hlt : old < scoreD m
          · have hstep : stepScores ps m
                = ps.map fun kv => if kv.1 = p' then (p', scoreD m) else kv := by
              simp [stepScores, hpid, hz, hold, hlt]
            rw [hstep]
            exact lookup_update_other _ _ _ _ (fun h => hpp h.symm)
          · have hstep : stepScores ps m = ps := by
              simp [stepScores, hpid, hz, hold, hlt]
            rw [hstep]

theorem lookup_foldl_stepScores (p : Int) (hp : p ≠ 0) (ms : List RMatch) :
    ∀ ps : List (Int × Int),
      (ms.foldl stepScores ps).lookup p = maxScoreAux p (ps.lookup p) ms := by
  induction ms with
  | nil => intro ps; rfl
  | cons m t ih =>
    intro ps
    rw [List.foldl_cons, ih (stepScores ps m), lookup_stepScores p hp]
    rfl

/-- `_get_page_ids` performs max-aggregation: the score the `page_scores`
dict retains for a genuine page id is the highest score seen for it. -/
theorem lookup_pageScores (p : Int) (hp : p ≠ 0) (ms : List RMatch) :
    (pageScores ms).lookup p = maxScore? ms p := by
  rw [pageScores, lookup_foldl_stepScores p hp ms []]
  rfl

theorem keys_update (ps : List (Int × Int)) (p s : Int) :
    ((ps.map fun kv => if kv.1 = p then (p, s) else kv).map Prod.fst) =
      ps.map Prod.fst := by
  induction ps with
  | nil => rfl
  | cons kv t ih =>
    obtain ⟨k, v⟩ := kv
    by_cases hk : k = p
    · subst hk
      simp [ih]
    · simp [hk, ih]

theorem mem_keys_stepScores (ps : List (Int × Int)) (m : RMatch) (q : Int) :
    q ∈ (stepScores ps m).map Prod.fst ↔
      q ∈ ps.map Prod.fst ∨ (m.metadata.page_id = some q ∧ q ≠ 0) := by
  cases hpid : m.metadata.page_id with
  | none => simp [stepScores, hpid]
  | some p' =>
    by_cases hz : p' = 0
    · subst hz
      simp only [stepScores, hpid, if_pos rfl]
      constructor
      · exact fun h => Or.inl h
      · rintro (h | ⟨h1, h2⟩)
        · exact h
        · exact absurd (by simpa using h1.symm) h2
    · cases hold : ps.lookup p' with
      | none =>
        have hstep : stepScores ps m = ps ++ [(p', scoreD m)] := by
          simp [stepScores, hpid, hz, hold]
        rw [hstep]
        simp only [List.map_append, List.map_cons, List.map_nil,
          List.mem_append, List.mem_cons, List.not_mem_nil, or_false, hpid]
        constructor
        · rintro (h | h)
          · exact Or.inl h
          · exact Or.inr ⟨by simpa using h.symm, h ▸ hz⟩
        · rintro (h | ⟨h1, _⟩)
          · exact Or.inl h
          · exact Or.inr (by simpa using h1.symm)
      | some old =>
        have hmem : p' ∈ ps.map Prod.fst := by
          by_contra hno
          rw [← lookup_eq_none_iff] at hno
          rw [hno] at hold
          exact Option.noConfusion hold
        by_cases hlt : old < scoreD m
        · have hstep : stepScores ps m
              = ps.map fun kv => if kv.1 = p' then (p', scoreD m) else kv := by
            simp [stepScores, hpid, hz, hold, hlt]
          rw [hstep, keys_update]
          constructor
          · exact fun h => Or.inl h
          · rintro (h | ⟨h1, _⟩)
            · exact h
            · have : p' = q := by simpa using h1
              exact this ▸ hmem
        · have hstep : stepScores ps m = ps := by
            simp [stepScores, hpid, hz, hold, hlt]
          rw [hstep]
          constructor
          · exact fun h => Or.inl h
          · rintro (h | ⟨h1, _⟩)
            · exact h
            · have : p' = q := by simpa using h1
              exact this ▸ hmem

theorem mem_keys_foldl_stepScores (q : Int) (ms : List RMatch) :
    ∀ ps : List (Int × Int),
      q ∈ (ms.foldl stepScores ps).map Prod.fst ↔
        q ∈ ps.map Prod.fst ∨ ∃ m ∈ ms, m.metadata.page_id = some q ∧ q ≠ 0 := by
  induction ms with
  | nil => intro ps; simp
  | cons m t ih =>
    intro ps
    rw [List.foldl_cons, ih (stepScores ps m), mem_keys_stepScores]
    constructor
    · rintro ((h | h) | ⟨m', hm', h'⟩)
      · exact Or.inl h
      · exact Or.inr ⟨m, List.mem_cons_self _ _, h⟩
      · exact Or.inr ⟨m', List.mem_cons_of_mem _ hm', h'⟩
    · rintro (h | ⟨m', hm', h'⟩)
      · exact Or.inl (Or.inl h)
      · rcases List.mem_cons.mp hm' with h1 | h1
        · exact Or.inl (Or.inr (h1 ▸ h'))
        · exact Or.inr ⟨m', h1, h'⟩

theorem mem_keys_pageScores (q : Int) (ms : List RMatch) :
    q ∈ (pageScores ms).map Prod.fst ↔
      ∃ m ∈ ms, m.metadata.page_id = some q ∧ q ≠ 0 := by
  rw [pageScores, mem_keys_foldl_stepScores]
  simp

theorem nodup_keys_stepScores (ps : List (Int × Int)) (m : RMatch)
    (h : (ps.map Prod.fst).Nodup) : ((stepScores ps m).map Prod.fst).Nodup := by
  cases hpid : m.metadata.page_id with
  | none => simpa [stepScores, hpid] using h
  | some p' =>
    by_cases hz : p' = 0
    · subst hz
      simpa [stepScores, hpid] using h
    · cases hold : ps.lookup p' with
      | none =>
        have hstep : stepScores ps m = ps ++ [(p', scoreD m)] := by
          simp [stepScores, hpid, hz, hold]
        rw [hstep]
        have hnotin : p' ∉ ps.map Prod.fst := (lookup_eq_none_iff _ _).mp hold
        simp only [List.map_append, List.map_cons, List.map_nil]
        rw [List.nodup_append]
        exact ⟨h, List.nodup_singleton _, by
          intro a ha hb
          simp only [List.mem_cons, List.not_mem_nil, or_false] at hb
          exact hnotin (hb ▸ ha)⟩
      | some old =>
        by_cases hlt : old < scoreD m
        · have hstep : stepScores ps m
              = ps.map fun kv => if kv.1 = p' then (p', scoreD m) else kv := by
            simp [stepScores, hpid, hz, hold, hlt]
          rw [hstep, keys_update]
          exact h
        · have hstep : stepScores ps m = ps := by
            simp [stepScores, hpid, hz, hold, hlt]
          rw [hstep]
          exact h

theorem nodup_keys_pageScores (ms : List RMatch) :
    ((pageScores ms).map Prod.fst).Nodup := by
  rw [pageScores]
  have : ∀ ps : List (Int × Int), (ps.map Prod.fst).Nodup →
      ((ms.foldl stepScores ps).map Prod.fst).Nodup := by
    induction ms with
    | nil => exact fun ps h => h
    | cons m t ih =>
      intro ps h
      rw [List.foldl_cons]
      exact ih _ (nodup_keys_stepScores ps m h)
  exact this [] (by simp)

theorem lookup_of_mem_nodup (ps : List (Int × Int)) (kv : Int × Int)
    (h : (ps.map Prod.fst).Nodup) (hm : kv ∈ ps) : ps.lookup kv.1 = some kv.2 := by
  induction ps with
  | nil => cases hm
  | cons kw t ih =>
    obtain ⟨k, w⟩ := kw
    rcases List.mem_cons.mp hm with h1 | h1
    · subst h1
      exact lookup_cons_eq _ _ _ _ rfl
    · have hne : kv.1 ≠ k := by
        intro he
        have : kv.1 ∈ t.map Prod.fst := List.mem_map_of_mem Prod.fst h1
        rw [List.map_cons, List.nodup_cons] at h
        exact h.1 (he ▸ this)
      rw [lookup_cons_ne _ _ _ _ hne]
      rw [List.map_cons, List.nodup_cons] at h
      exact ih h.2 h1

/-- Membership in the scoped page list: exactly the truthy page ids of the
question-index matches appear. -/
theorem mem_getPageIds (q : Int) (ms : List RMatch) :
    q ∈ getPageIds ms ↔ ∃ m ∈ ms, m.metadata.page_id = some q ∧ q ≠ 0 := by
  rw [getPageIds, ← mem_keys_pageScores]
  exact ((sortDesc_perm _ _).map Prod.fst).mem_iff

theorem nodup_getPageIds (ms : List RMatch) : (getPageIds ms).Nodup := by
  rw [getPageIds]
  exact (((sortDesc_perm _ _).map Prod.fst).nodup_iff).mpr (nodup_keys_pageScores ms)

/-- The scoped page list is ordered by descending retained (maximal) score. -/
theorem getPageIds_sorted (ms : List RMatch) :
    (getPageIds ms).Pairwise
      (fun a b => (maxScore? ms b).getD 0 ≤ (maxScore? ms a).getD 0) := by
  rw [getPageIds, List.pairwise_map]
  have hpair := sortDesc_pairwise Prod.snd (pageScores ms)
  refine hpair.imp_of_mem ?_
  intro kv kv' hmem hmem' hrel
  have hkv : kv ∈ pageScores ms := (sortDesc_perm _ _).mem_iff.mp hmem
  have hkv' : kv' ∈ pageScores ms := (sortDesc_perm _ _).mem_iff.mp hmem'
  have hz : kv.1 ≠ 0 := by
    have := (mem_keys_pageScores kv.1 ms).mp (List.mem_map_of_mem Prod.fst hkv)
    exact this.choose_spec.2.2
  have hz' : kv'.1 ≠ 0 := by
    have := (mem_keys_pageScores kv'.1 ms).mp (List.mem_map_of_mem Prod.fst hkv')
    exact this.choose_spec.2.2
  have h1 : maxScore? ms kv.1 = some kv.2 := by
    rw [← lookup_pageScores kv.1 hz]
    exact lookup_of_mem_nodup _ _ (nodup_keys_pageScores ms) hkv
  have h2 : maxScore? ms kv'.1 = some kv'.2 := by
    rw [← lookup_pageScores kv'.1 hz']
    exact lookup_of_mem_nodup _ _ (nodup_keys_pageScores ms) hkv'
  rw [h1, h2]
  exact hrel

theorem maxScoreAux_of_no_hit (p : Int) (ms : List RMatch)
    (h : ∀ m ∈ ms, m.metadata.page_id ≠ some p) :
    ∀ o : Option Int, maxScoreAux p o ms = o := by
  induction ms with
  | nil => intro o; rfl
  | cons m t ih =>
    intro o
    have hm : m.metadata.page_id ≠ some p := h m (List.mem_cons_self _ _)
    have : maxStep p o m = o := by simp [maxStep, hm]
    rw [maxScoreAux, List.foldl_cons, this]
    exact ih (fun m' hm' => h m' (List.mem_cons_of_mem _ hm')) o

/-- C3: Page scoping uses max-aggregation: each page id retains only the
highest score seen for it, and the stage's output is the list of distinct
page ids ordered by descending retained score.  (Stated for matches that all
carry a genuine — present and truthy — page id; C10 covers the others.) -/
theorem pageScoping_maxAggregation (ms : List RMatch)
    (h : ∀ m ∈ ms, ∃ p : Int, m.metadata.page_id = some p ∧ p ≠ 0) :
    (getPageIds ms).Nodup
    ∧ (∀ p : Int, p ∈ getPageIds ms ↔
        some p ∈ ms.map fun m => m.metadata.page_id)
    ∧ (∀ p : Int, (pageScores ms).lookup p = maxScore? ms p)
    ∧ (getPageIds ms).Pairwise
        (fun a b => (maxScore? ms b).getD 0 ≤ (maxScore? ms a).getD 0) := by
  refine ⟨nodup_getPageIds ms, ?_, ?_, getPageIds_sorted ms⟩
  · intro p
    rw [mem_getPageIds]
    constructor
    · rintro ⟨m, hm, hpid, _⟩
      rw [List.mem_map]
      exact ⟨m, hm, hpid⟩
    · intro hp
      rw [List.mem_map] at hp
      obtain ⟨m, hm, hpid⟩ := hp
      obtain ⟨p', hp', hz'⟩ := h m hm
      have : p' = p := by
        rw [hp'] at hpid
        exact Option.some.inj hpid
      exact ⟨m, hm, hpid, this ▸ hz'⟩
  · intro p
    by_cases hz : p = 0
    · subst hz
      have hnone : ∀ m ∈ ms, m.metadata.page_id ≠ some 0 := by
        intro m hm heq
        obtain ⟨p', hp', hz'⟩ := h m hm
        rw [hp'] at heq
        exact hz' (Option.some.inj heq)
      rw [show maxScore? ms 0 = none from maxScoreAux_of_no_hit 0 ms hnone none]
      rw [lookup_eq_none_iff, mem_keys_pageScores]
      rintro ⟨m, hm, hpid, _⟩
      exact hnone m hm hpid
    · exact lookup_pageScores p hz ms

/-- The spec's page-scoping example: matches
`[(page=1, score=0.9), (page=1, score=0.5), (page=2, score=0.7)]`
(scores scaled to integers, which preserves their order). -/
def c3ex : List RMatch :=
  [⟨some 9, ⟨some 1, none, none⟩, none⟩,
   ⟨some 5, ⟨some 1, none, none⟩, none⟩,
   ⟨some 7, ⟨some 2, none, none⟩, none⟩]

theorem pageScoping_maxAggregation_witness :
    (∀ m ∈ c3ex, ∃ p : Int, m.metadata.page_id = some p ∧ p ≠ 0)
    ∧ ((getPageIds c3ex).Nodup
      ∧ (∀ p : Int, p ∈ getPageIds c3ex ↔
          some p ∈ c3ex.map fun m => m.metadata.page_id)
      ∧ (∀ p : Int, (pageScores c3ex).lookup p = maxScore? c3ex p)
      ∧ (getPageIds c3ex).Pairwise
          (fun a b => (maxScore? c3ex b).getD 0 ≤ (maxScore? c3ex a).getD 0))
    ∧ getPageIds c3ex = [1, 2] := by
  have h : ∀ m ∈ c3ex, ∃ p : Int, m.metadata.page_id = some p ∧ p ≠ 0 := by
    intro m hm
    fin_cases hm
    · exact ⟨1, rfl, by decide⟩
    · exact ⟨1, rfl, by decide⟩
    · exact ⟨2, rfl, by decide⟩
  exact ⟨h, pageScoping_maxAggregation c3ex h, by decide⟩

/-- C5: Global rerank is sort-and-truncate: the output is the `top_n`
highest-scoring entries in descending score order (`min top_n length` of
them), the remainder all score no higher, and ties keep encounter order
(the stable-sort property, stated via score-level filters). -/
theorem rerank_sort_truncate (rs : List RMatch) (topN : Nat) :
    rerank rs topN = (sortDesc scoreD rs).take topN
    ∧ (rerank rs topN).Pairwise (fun a b => scoreD b ≤ scoreD a)
    ∧ (rerank rs topN).length = min topN rs.length
    ∧ (rerank rs topN ++ (sortDesc scoreD rs).drop topN).Perm rs
    ∧ (∀ x ∈ rerank rs topN, ∀ y ∈ (sortDesc scoreD rs).drop topN,
        scoreD y ≤ scoreD x)
    ∧ (∀ s : Int, (sortDesc scoreD rs).filter (fun m => scoreD m == s)
        = rs.filter fun m => scoreD m == s) := by
  refine ⟨rfl, ?_, ?_, ?_, ?_, fun s => filter_key_sortDesc scoreD s rs⟩
  · exact (sortDesc_pairwise scoreD rs).sublist (List.take_sublist _ _)
  · rw [rerank, List.length_take, (sortDesc_perm scoreD rs).length_eq]
  · rw [rerank, List.take_append_drop]
    exact sortDesc_perm scoreD rs
  · have hpair := sortDesc_pairwise scoreD rs
    rw [← List.take_append_drop topN (sortDesc scoreD rs),
      List.pairwise_append] at hpair
    exact hpair.2.2

/-- A question-index stub returning one page-1 match for the query `"X"`. -/
def qretX : String → Nat → Option Int → List RMatch := fun q _ f =>
  if q = "X" ∧ f = none then [⟨some 9, ⟨some 1, none, none⟩, none⟩] else []

/-- A chunk-index stub honouring the filter contract: for filter `page_id=p`
it returns one match on page `p`. -/
def cretX : String → Nat → Option Int → List RMatch := fun _ _ f =>
  match f with
  | some p => [⟨some 8, ⟨some p, some "chunk-text", some 3⟩, none⟩]
  | none => []

/-- C2 counterexample: with an expander returning `[]` for query `"X"` and
indexes that would answer `"X"`, `get_context_chunks` returns `[]`, while the
claimed fallback — running stages 2–4 on `["X"]` — would return a chunk: the
code contains no `[query]` fallback. -/
theorem getContextChunks_no_query_fallback :
    getContextChunks (fun _ => []) qretX cretX "X" 15 = []
    ∧ contextChunksFromQuestions qretX cretX ["X"] 15 ≠ [] := by
  constructor
  · rfl
  · decide

/-- C2 amended: when the expander returns an empty list, stages 2–4 run on
the empty sub-question list and the call returns `[]` — a non-error (the
function is total), but empty, result; no `[query]` fallback exists. -/
theorem getContextChunks_empty_expansion_empty (expand : String → List String)
    (qret cret : String → Nat → Option Int → List RMatch)
    (query : String) (topN : Nat) (h : expand query = []) :
    getContextChunks expand qret cret query topN = [] := by
  show contextChunksFromQuestions qret cret (expand query) topN = []
  rw [h]
  simp [contextChunksFromQuestions, getChunks, rerank, sortDesc, List.insertionSort]

theorem getContextChunks_empty_expansion_empty_witness :
    (fun _ : String => ([] : List String)) "X" = []
    ∧ getContextChunks (fun _ => []) qretX cretX "X" 15 = [] :=
  ⟨rfl, getContextChunks_empty_expansion_empty _ qretX cretX "X" 15 rfl⟩

theorem getChunksCalls_cons (qp : String × List Int)
    (rest : List (String × List Int)) (cpp : Nat) :
    getChunksCalls (qp :: rest) cpp
      = qp.2.map (fun p => (qp.1, cpp, some p)) ++ getChunksCalls rest cpp := by
  simp [getChunksCalls]

theorem fst_of_mem_getChunksCalls (qtp : List (String × List Int)) (cpp : Nat)
    (x : String × Nat × Option Int) (h : x ∈ getChunksCalls qtp cpp) :
    x.1 ∈ qtp.map Prod.fst := by
  rw [getChunksCalls, List.mem_flatMap] at h
  obtain ⟨qp, hqp, hx⟩ := h
  rw [List.mem_map] at hx
  obtain ⟨p, _, hxe⟩ := hx
  rw [← hxe]
  exact List.mem_map_of_mem Prod.fst hqp

theorem nodup_getChunksCalls (qtp : List (String × List Int)) (cpp : Nat)
    (hq : (qtp.map Prod.fst).Nodup) (hp : ∀ qp ∈ qtp, qp.2.Nodup) :
    (getChunksCalls qtp cpp).Nodup := by
  induction qtp with
  | nil => simp [getChunksCalls]
  | cons qp rest ih =>
    rw [List.map_cons, List.nodup_cons] at hq
    rw [getChunksCalls_cons, List.nodup_append]
    refine ⟨?_, ?_, ?_⟩
    · refine List.Nodup.map ?_ (hp qp (List.mem_cons_self _ _))
      intro a b hab
      simpa using congrArg (fun x => x.2.2) hab
    · exact ih hq.2 fun qp' h' => hp qp' (List.mem_cons_of_mem _ h')
    · intro a ha hb
      rw [List.mem_map] at ha
      obtain ⟨p, _, hae⟩ := ha
      have h1 : a.1 = qp.1 := by rw [← hae]
      have h2 : a.1 ∈ rest.map Prod.fst := fst_of_mem_getChunksCalls rest cpp a hb
      exact hq.1 (h1 ▸ h2)

theorem mem_getChunks (cret : String → Nat → Option Int → List RMatch)
    (qtp : List (String × List Int)) (cpp : Nat) (mt : RMatch) :
    mt ∈ getChunks cret qtp cpp ↔
      ∃ qp ∈ qtp, ∃ p ∈ qp.2, ∃ m0 ∈ cret qp.1 cpp (some p),
        mt = { m0 with question := some qp.1 } := by
  rw [getChunks, List.mem_flatMap]
  constructor
  · rintro ⟨qp, hqp, hmem⟩
    rw [List.mem_flatMap] at hmem
    obtain ⟨p, hpmem, hmap⟩ := hmem
    rw [List.mem_map] at hmap
    obtain ⟨m0, hm0, hme⟩ := hmap
    exact ⟨qp, hqp, p, hpmem, m0, hm0, hme.symm⟩
  · rintro ⟨qp, hqp, p, hpmem, m0, hm0, hme⟩
    refine ⟨qp, hqp, ?_⟩
    rw [List.mem_flatMap]
    refine ⟨p, hpmem, ?_⟩
    rw [List.mem_map]
    exact ⟨m0, hm0, hme.symm⟩

/-- C4: `_get_chunks` queries the chunk index exactly once per
(question, page_id) pair — with `top_k = chunks_per_page` and an exact-match
filter on that page_id — and, whenever the store honours its filter contract,
every match in the flattened result carries the page_id its own query
requested. -/
theorem scopedChunkRetrieval_pageExact
    (cret : String → Nat → Option Int → List RMatch)
    (qtp : List (String × List Int)) (cpp : Nat)
    (hq : (qtp.map Prod.fst).Nodup)
    (hp : ∀ qp ∈ qtp, qp.2.Nodup)
    (hfilter : ∀ q k p mt, mt ∈ cret q k (some p) → mt.metadata.page_id = some p) :
    (getChunksCalls qtp cpp).Nodup
    ∧ (∀ q k f, (q, k, f) ∈ getChunksCalls qtp cpp ↔
        (k = cpp ∧ ∃ pids, (q, pids) ∈ qtp ∧ ∃ p ∈ pids, f = some p))
    ∧ (∀ mt ∈ getChunks cret qtp cpp, ∃ q pids p, (q, pids) ∈ qtp ∧ p ∈ pids
        ∧ mt.question = some q ∧ mt.metadata.page_id = some p) := by
  refine ⟨nodup_getChunksCalls qtp cpp hq hp, ?_, ?_⟩
  · intro q k f
    rw [getChunksCalls, List.mem_flatMap]
    constructor
    · rintro ⟨qp, hqp, hmem⟩
      rw [List.mem_map] at hmem
      obtain ⟨p, hpmem, he⟩ := hmem
      obtain ⟨he1, he2, he3⟩ : qp.1 = q ∧ cpp = k ∧ some p = f := by
        refine ⟨congrArg (fun x => x.1) he, ?_, ?_⟩
        · exact congrArg (fun x => x.2.1) he
        · exact congrArg (fun x => x.2.2) he
      exact ⟨he2.symm, qp.2, by rw [← he1]; exact hqp, p, hpmem, he3.symm⟩
    · rintro ⟨hk, pids, hqp, p, hpmem, hf⟩
      exact ⟨(q, pids), hqp, by
        rw [List.mem_map]
        exact ⟨p, hpmem, by rw [hk, hf]⟩⟩
  · intro mt hmt
    rw [mem_getChunks] at hmt
    obtain ⟨qp, hqp, p, hpmem, m0, hm0, hme⟩ := hmt
    refine ⟨qp.1, qp.2, p, hqp, hpmem, ?_, ?_⟩
    · rw [hme]
    · rw [hme]
      exact hfilter qp.1 cpp p m0 hm0

def c4qtp : List (String × List Int) := [("Q1", [1, 2]), ("Q2", [1])]

theorem scopedChunkRetrieval_pageExact_witness :
    ((c4qtp.map Prod.fst).Nodup
      ∧ (∀ qp ∈ c4qtp, qp.2.Nodup)
      ∧ (∀ q k p mt, mt ∈ cretX q k (some p) → mt.metadata.page_id = some p))
    ∧ ((getChunksCalls c4qtp 3).Nodup
      ∧ (∀ q k f, (q, k, f) ∈ getChunksCalls c4qtp 3 ↔
          (k = 3 ∧ ∃ pids, (q, pids) ∈ c4qtp ∧ ∃ p ∈ pids, f = some p))
      ∧ (∀ mt ∈ getChunks cretX c4qtp 3, ∃ q pids p, (q, pids) ∈ c4qtp ∧ p ∈ pids
          ∧ mt.question = some q ∧ mt.metadata.page_id = some p)) := by
  have h1 : (c4qtp.map Prod.fst).Nodup := by decide
  have h2 : ∀ qp ∈ c4qtp, qp.2.Nodup := by decide
  have h3 : ∀ q k p mt, mt ∈ cretX q k (some p) → mt.metadata.page_id = some p := by
    intro q k p mt hmt
    simp only [cretX] at hmt
    rw [List.mem_singleton] at hmt
    rw [hmt]
  exact ⟨⟨h1, h2, h3⟩, scopedChunkRetrieval_pageExact cretX c4qtp 3 h1 h2 h3⟩

/-- `if page_id:` — the match survives the guard in `_get_page_ids` exactly
when its metadata page_id is present and truthy (nonzero). -/
def truthyPage (m : RMatch) : Bool :=
  match m.metadata.page_id with
  | some p => p != 0
  | none => false

theorem stepScores_falsy (ps : List (Int × Int)) (m : RMatch)
    (h : truthyPage m = false) : stepScores ps m = ps := by
  unfold truthyPage at h
  cases hpid : m.metadata.page_id with
  | none => simp [stepScores, hpid]
  | some p =>
    rw [hpid] at h
    have hz : p = 0 := by simpa using h
    simp [stepScores, hpid, hz]

theorem foldl_stepScores_filter_truthy (ms : List RMatch) :
    ∀ ps : List (Int × Int),
      (ms.filter truthyPage).foldl stepScores ps = ms.foldl stepScores ps := by
  induction ms with
  | nil => intro ps; rfl
  | cons m t ih =>
    intro ps
    by_cases h : truthyPage m = true
    · rw [List.filter_cons_of_pos h, List.foldl_cons, List.foldl_cons, ih]
    · have hf : truthyPage m = false := by simpa using h
      rw [List.filter_cons_of_neg (by simp [hf]), List.foldl_cons,
        stepScores_falsy ps m hf, ih]

/-- C10: a question-index match without a present, truthy page_id is
silently dropped by page scoping — filtering such matches away changes
nothing; page id 0 can never be scoped; and (given the filter contract) no
retrieved chunk ever reports page 0. -/
theorem falsy_pageId_dropped (ms : List RMatch)
    (expand : String → List String)
    (qret cret : String → Nat → Option Int → List RMatch)
    (query : String) (topN : Nat)
    (hfilter : ∀ q k p mt, mt ∈ cret q k (some p) → mt.metadata.page_id = some p) :
    getPageIds (ms.filter truthyPage) = getPageIds ms
    ∧ (0 : Int) ∉ getPageIds ms
    ∧ ∀ r ∈ getContextChunks expand qret cret query topN, r.page_id ≠ some 0 := by
  refine ⟨?_, ?_, ?_⟩
  · rw [getPageIds, getPageIds, pageScores, pageScores,
      foldl_stepScores_filter_truthy]
  · intro h0
    obtain ⟨m, _, _, hz⟩ := (mem_getPageIds 0 ms).mp h0
    exact hz rfl
  · intro r hr
    rw [getContextChunks, contextChunksFromQuestions, List.mem_map] at hr
    obtain ⟨mt, hmt, hre⟩ := hr
    have hmt1 : mt ∈ sortDesc scoreD (getChunks cret
        ((expand query).eraseDups.map fun q => (q, getPageIds (qret q 5 none))) 3) :=
      (List.take_sublist _ _).subset hmt
    have hmt2 := (sortDesc_perm scoreD _).mem_iff.mp hmt1
    rw [mem_getChunks] at hmt2
    obtain ⟨qp, hqp, p, hpmem, m0, hm0, hme⟩ := hmt2
    rw [List.mem_map] at hqp
    obtain ⟨q, _, hqe⟩ := hqp
    have hpz : p ≠ 0 := by
      have : p ∈ getPageIds (qret q 5 none) := by
        have hsnd := congrArg Prod.snd hqe
        simp only at hsnd
        rw [hsnd]; exact hpmem
      exact ((mem_getPageIds p _).mp this).choose_spec.2.2
    have hpid : mt.metadata.page_id = some p := by
      rw [hme]
      exact hfilter qp.1 3 p m0 hm0
    rw [← hre]
    show (projectMatch mt).page_id ≠ some 0
    rw [projectMatch]
    simp only [hpid]
    intro hcontra
    exact hpz (Option.some.inj hcontra)

/-- Matches with a falsy (`0`) or missing page_id, plus one genuine page. -/
def c10ex : List RMatch :=
  [⟨some 9, ⟨some 0, none, none⟩, none⟩,
   ⟨some 7, ⟨none, none, none⟩, none⟩,
   ⟨some 5, ⟨some 2, none, none⟩, none⟩]

theorem falsy_pageId_dropped_witness :
    (∀ q k p mt, mt ∈ cretX q k (some p) → mt.metadata.page_id = some p)
    ∧ (getPageIds (c10ex.filter truthyPage) = getPageIds c10ex
      ∧ (0 : Int) ∉ getPageIds c10ex
      ∧ ∀ r ∈ getContextChunks (fun _ => ["Q"]) qretX cretX "Q" 15,
          r.page_id ≠ some 0)
    ∧ getPageIds c10ex = [2] := by
  have h3 : ∀ q k p mt, mt ∈ cretX q k (some p) → mt.metadata.page_id = some p := by
    intro q k p mt hmt
    simp only [cretX] at hmt
    rw [List.mem_singleton] at hmt
    rw [hmt]
  exact ⟨h3, falsy_pageId_dropped c10ex (fun _ => ["Q"]) qretX cretX "Q" 15 h3,
    by decide⟩

/-! ## Document processor (`src/app/hierarchical_rag/modules/indexer.py`)

A `PdfPages` row's related artifacts are flattened to their string payloads
(`question.question`, `tag.tag`, `chunk.chunk`).  The SHA-256 hex digest
`hashlib.sha256(s.encode()).hexdigest()` is abstracted as a function
parameter `h : String → String`; the code keeps its first 16 characters. -/

structure PageArtifacts where
  id : Int
  questions : List String
  tags : List String
  chunks : List String

/-- The dict `DocumentProcessor.process_page` builds for each artifact:
exactly one of `question`/`chunk` is present. -/
structure IndexDocument where
  id : String
  question : Option String
  chunk : Option String
  tags : List String
  page_id : Int
  pdf_id : Int
  deriving DecidableEq, Repr

/-- `DocumentProcessor.process_page`: one document per question (in order),
then one per chunk, with ids `f"q-{page.id}-{hash[:16]}"` and
`f"c-{page.id}-{hash[:16]}"`. -/
def processPage (h : String → String) (page : PageArtifacts) (pdfId : Int) :
    List IndexDocument :=
  (page.questions.map fun q =>
    { id := "q-" ++ toString page.id ++ "-" ++ (h q).take 16
      question := some q, chunk := none, tags := page.tags
      page_id := page.id, pdf_id := pdfId })
  ++ page.chunks.map fun c =>
    { id := "c-" ++ toString page.id ++ "-" ++ (h c).take 16
      question := none, chunk := some c, tags := page.tags
      page_id := page.id, pdf_id := pdfId }

inductive ArtifactKind where
  | question
  | chunk
  deriving DecidableEq

/-- The spec's reference id formula (§4.1): `"q-" + page_id + "-" +
hash(question)[:16]` for questions, `"c-" + page_id + "-" + hash(chunk)[:16]`
for chunks — a function of (artifact kind, page identifier, content hash)
only. -/
def specDocId (h : String → String) (k : ArtifactKind) (pageId : Int)
    (content : String) : String :=
  (match k with
    | ArtifactKind.question => "q-"
    | ArtifactKind.chunk => "c-")
    ++ toString pageId ++ "-" ++ (h content).take 16

/-- The spec's reference document processor (§4.1): one indexable document
per question, one per chunk, each carrying the page's full tag list and the
content-hash-derived id. -/
def processPageSpec (h : String → String) (page : PageArtifacts) (pdfId : Int) :
    List IndexDocument :=
  (page.questions.map fun q =>
    { id := specDocId h ArtifactKind.question page.id q
      question := some q, chunk := none, tags := page.tags
      page_id := page.id, pdf_id := pdfId })
  ++ page.chunks.map fun c =>
    { id := specDocId h ArtifactKind.chunk page.id c
      question := none, chunk := some c, tags := page.tags
      page_id := page.id, pdf_id := pdfId }

/-- C9: `process_page` matches the reference definition: it is the pure map
producing one question document then one chunk document per artifact, each
with the page's full tag list, `page_id` and `pdf_id`, ids determined by
(kind, page id, content hash); an empty artifact set yields `[]`. -/
theorem processPage_matches_reference (h : String → String)
    (page : PageArtifacts) (pdfId : Int) :
    processPage h page pdfId = processPageSpec h page pdfId
    ∧ (processPage h page pdfId).length
        = page.questions.length + page.chunks.length
    ∧ processPage h { page with questions := [], chunks := [] } pdfId = []
    ∧ (∀ d ∈ processPage h page pdfId,
        d.tags = page.tags ∧ d.page_id = page.id ∧ d.pdf_id = pdfId)
    ∧ (∀ d ∈ processPage h page pdfId,
        (∃ q ∈ page.questions, d.question = some q ∧ d.chunk = none
          ∧ d.id = "q-" ++ toString page.id ++ "-" ++ (h q).take 16)
        ∨ (∃ c ∈ page.chunks, d.chunk = some c ∧ d.question = none
          ∧ d.id = "c-" ++ toString page.id ++ "-" ++ (h c).take 16)) := by
  refine ⟨rfl, ?_, rfl, ?_, ?_⟩
  · simp [processPage]
  · intro d hd
    rw [processPage, List.mem_append] at hd
    rcases hd with hd | hd <;>
      · rw [List.mem_map] at hd
        obtain ⟨x, _, hde⟩ := hd
        rw [← hde]
        exact ⟨rfl, rfl, rfl⟩
  · intro d hd
    rw [processPage, List.mem_append] at hd
    rcases hd with hd | hd
    · rw [List.mem_map] at hd
      obtain ⟨q, hq, hde⟩ := hd
      exact Or.inl ⟨q, hq, by rw [← hde], by rw [← hde], by rw [← hde]⟩
    · rw [List.mem_map] at hd
      obtain ⟨c, hc, hde⟩ := hd
      exact Or.inr ⟨c, hc, by rw [← hde], by rw [← hde], by rw [← hde]⟩

/-! ## Indexer (`src/app/core/indexing.py`)

`PineconeIndexer` is generic over the document dict: `text_key` selects the
embedded text and the metadata is some per-document projection, so the
document type `D`, `textOf` (`doc[self.text_key]`) and `metaOf` (the
`metadata_keys` projection plus `metadata[text_key] = doc[text_key]`) are
parameters.  Two aspects are modelled per the collaborator contracts the code
relies on (spec §6):

* `EmbeddingService.embed(texts)` returns one vector per input, in order, as
  a pure function of each text — so a per-batch call equals mapping
  `embedF : String → V` over the batch;
* `str(uuid.uuid4())`, a fresh identifier per record, is modelled as a
  deterministic stream `uuid : Nat → String` read at each record's global
  position (the ids are drawn in document order, batch by batch). -/

structure VectorRecord (V M : Type) where
  id : String
  values : V
  metadata : M
  deriving DecidableEq, Repr

/-- `PineconeIndexer.chunked`: `iterable[i:i + size]` for
`i in range(0, len(iterable), size)`.  (Python raises `ValueError` for
`size = 0`; the claims only concern positive sizes, where this model is
exact.) -/
def chunked : List α → Nat → List (List α)
  | [], _ => []
  | _ :: _, 0 => []
  | x :: xs, s + 1 =>
      (x :: xs).take (s + 1) :: chunked ((x :: xs).drop (s + 1)) (s + 1)
termination_by l _ => l.length
decreasing_by
  rw [List.length_drop]
  simp only [List.length_cons]
  omega

theorem chunked_nil (size : Nat) : chunked ([] : List α) size = [] := by
  rw [chunked]

theorem chunked_cons (l : List α) (size : Nat) (hl : l ≠ []) (hs : size ≠ 0) :
    chunked l size = l.take size :: chunked (l.drop size) size := by
  cases l with
  | nil => exact absurd rfl hl
  | cons x xs =>
    cases size with
    | zero => exact absurd rfl hs
    | succ s => rw [chunked]

/-- The `pinecone_batch` built for one batch whose first record sits at
global position `n`: per document, the next fresh id, the embedding of its
text, and its metadata projection. -/
def recordsOfBatch (textOf : D → String) (metaOf : D → M) (embedF : String → V)
    (uuid : Nat → String) (batch : List D) (n : Nat) : List (VectorRecord V M) :=
  (List.enumFrom n batch).map fun x => ⟨uuid x.1, embedF (textOf x.2), metaOf x.2⟩

/-- The batch loop of `index_documents`, threading the fresh-id position. -/
def indexBatches (textOf : D → String) (metaOf : D → M) (embedF : String → V)
    (uuid : Nat → String) : List (List D) → Nat → List (VectorRecord V M)
  | [], _ => []
  | b :: bs, n =>
      recordsOfBatch textOf metaOf embedF uuid b n
        ++ indexBatches textOf metaOf embedF uuid bs (n + b.length)

/-- `PineconeIndexer.index_documents(documents, batch_size)`: chunk, embed
per batch, build records, upsert in order.  Returns the full upserted record
sequence. -/
def indexDocuments (textOf : D → String) (metaOf : D → M) (embedF : String → V)
    (uuid : Nat → String) (docs : List D) (batchSize : Nat) (n : Nat) :
    List (VectorRecord V M) :=
  indexBatches textOf metaOf embedF uuid (chunked docs batchSize) n

theorem recordsOfBatch_append (textOf : D → String) (metaOf : D → M)
    (embedF : String → V) (uuid : Nat → String) (l₁ l₂ : List D) (n : Nat) :
    recordsOfBatch textOf metaOf embedF uuid (l₁ ++ l₂) n
      = recordsOfBatch textOf metaOf embedF uuid l₁ n
        ++ recordsOfBatch textOf metaOf embedF uuid l₂ (n + l₁.length) := by
  rw [recordsOfBatch, List.enumFrom_append, List.map_append]
  rfl

theorem indexDocuments_eq_single (textOf : D → String) (metaOf : D → M)
    (embedF : String → V) (uuid : Nat → String) (b : Nat) (hb : 0 < b) :
    ∀ N : Nat, ∀ docs : List D, docs.length ≤ N → ∀ n : Nat,
      indexDocuments textOf metaOf embedF uuid docs b n
        = recordsOfBatch textOf metaOf embedF uuid docs n := by
  intro N
  induction N with
  | zero =>
    intro docs hlen n
    have : docs = [] := List.length_eq_zero.mp (Nat.le_zero.mp hlen)
    subst this
    rw [indexDocuments, chunked_nil]
    rfl
  | succ N ih =>
    intro docs hlen n
    by_cases hd : docs = []
    · subst hd
      rw [indexDocuments, chunked_nil]
      rfl
    · rw [indexDocuments, chunked_cons docs b hd (Nat.not_eq_zero_of_lt hb),
        indexBatches]
      have hdrop : (docs.drop b).length ≤ N := by
        rw [List.length_drop]
        have : 0 < docs.length := List.length_pos.mpr hd
        omega
      rw [show indexBatches textOf metaOf embedF uuid (chunked (docs.drop b) b)
            (n + (docs.take b).length)
          = indexDocuments textOf metaOf embedF uuid (docs.drop b) b
            (n + (docs.take b).length) from rfl]
      rw [ih (docs.drop b) hdrop]
      rw [← recordsOfBatch_append]
      rw [List.take_append_drop]

theorem chunked_flatten (b : Nat) (hb : 0 < b) :
    ∀ N : Nat, ∀ l : List α, l.length ≤ N → (chunked l b).flatten = l := by
  intro N
  induction N with
  | zero =>
    intro l hlen
    have : l = [] := List.length_eq_zero.mp (Nat.le_zero.mp hlen)
    subst this
    rw [chunked_nil]
    rfl
  | succ N ih =>
    intro l hlen
    by_cases hd : l = []
    · subst hd
      rw [chunked_nil]
      rfl
    · rw [chunked_cons l b hd (Nat.not_eq_zero_of_lt hb), List.flatten_cons]
      have hdrop : (l.drop b).length ≤ N := by
        rw [List.length_drop]
        have : 0 < l.length := List.length_pos.mpr hd
        omega
      rw [ih (l.drop b) hdrop, List.take_append_drop]

theorem chunked_batch_shape (b : Nat) (hb : 0 < b) :
    ∀ N : Nat, ∀ l : List α, l.length ≤ N →
      ∀ c ∈ chunked l b, c ≠ [] ∧ c.length ≤ b := by
  intro N
  induction N with
  | zero =>
    intro l hlen c hc
    have : l = [] := List.length_eq_zero.mp (Nat.le_zero.mp hlen)
    subst this
    rw [chunked_nil] at hc
    cases hc
  | succ N ih =>
    intro l hlen c hc
    by_cases hd : l = []
    · subst hd
      rw [chunked_nil] at hc
      cases hc
    · rw [chunked_cons l b hd (Nat.not_eq_zero_of_lt hb)] at hc
      rcases List.mem_cons.mp hc with hc | hc
      · subst hc
        have hlp : 0 < l.length := List.length_pos.mpr hd
        constructor
        · intro he
          have hlen' : (l.take b).length = 0 := by rw [he]; rfl
          rw [List.length_take] at hlen'
          omega
        · rw [List.length_take]
          omega
      · have hdrop : (l.drop b).length ≤ N := by
          rw [List.length_drop]
          have : 0 < l.length := List.length_pos.mpr hd
          omega
        exact ih (l.drop b) hdrop c hc

/-- C6: batching is order-preserving and batch size is not a correctness
parameter: for any two positive batch sizes the upserted record sequence is
identical (under the pure Embedder contract and a fixed fresh-id stream). -/
theorem indexing_batchSize_independent (textOf : D → String) (metaOf : D → M)
    (embedF : String → V) (uuid : Nat → String) (docs : List D)
    (b₁ b₂ n : Nat) (h₁ : 0 < b₁) (h₂ : 0 < b₂) :
    (chunked docs b₁).flatten = docs
    ∧ (∀ c ∈ chunked docs b₁, c ≠ [] ∧ c.length ≤ b₁)
    ∧ indexDocuments textOf metaOf embedF uuid docs b₁ n
        = indexDocuments textOf metaOf embedF uuid docs b₂ n := by
  refine ⟨chunked_flatten b₁ h₁ docs.length docs le_rfl,
    chunked_batch_shape b₁ h₁ docs.length docs le_rfl, ?_⟩
  rw [indexDocuments_eq_single textOf metaOf embedF uuid b₁ h₁ docs.length docs
      le_rfl n,
    indexDocuments_eq_single textOf metaOf embedF uuid b₂ h₂ docs.length docs
      le_rfl n]

theorem indexing_batchSize_independent_witness :
    ((0 : Nat) < 2 ∧ (0 : Nat) < 5)
    ∧ ((chunked ["a", "b", "c"] 2).flatten = ["a", "b", "c"]
      ∧ (∀ c ∈ chunked ["a", "b", "c"] 2, c ≠ [] ∧ c.length ≤ 2)
      ∧ indexDocuments id (fun _ => ()) String.length toString ["a", "b", "c"] 2 0
          = indexDocuments id (fun _ => ()) String.length toString ["a", "b", "c"] 5 0) :=
  ⟨⟨by decide, by decide⟩,
    indexing_batchSize_independent id (fun _ => ()) String.length toString
      ["a", "b", "c"] 2 5 0 (by decide) (by decide)⟩

/-! ## Vector-store state and the indexing path run twice (C1) -/

/-- Upsert-by-id (spec §6): writing a record whose id is present overwrites
it in place; a fresh id appends. -/
def upsertOne (store : List (VectorRecord V M)) (r : VectorRecord V M) :
    List (VectorRecord V M) :=
  if store.any (fun s => s.id == r.id) then
    store.map fun s => if s.id == r.id then r else s
  else store ++ [r]

def upsertAll (store : List (VectorRecord V M)) (rs : List (VectorRecord V M)) :
    List (VectorRecord V M) :=
  rs.foldl upsertOne store

/-- A stand-in for `hashlib.sha256(...).hexdigest()` (any fixed function
works: the indexer never reads the document ids, which is the bug). -/
def hashStub : String → String := fun s => s ++ "-0123456789abcdef"

/-- The fresh-id supply: `str(uuid.uuid4())` yields a new identifier at every
call, modelled by its call index. -/
def uuidStream : Nat → String := fun n => "uuid-" ++ toString n

/-- One page (id 7) whose artifact set is the single chunk `"C1"`. -/
def c1page : PageArtifacts := ⟨7, [], [], ["C1"]⟩

def c1docs : List IndexDocument := processPage hashStub c1page 3

/-- The metadata dict the chunk indexer builds per document:
`metadata_keys = ["tags", "page_id", "pdf_id"]` plus
`metadata[text_key] = doc["chunk"]`. -/
structure ChunkMeta where
  tags : List String
  page_id : Int
  pdf_id : Int
  chunk : String
  deriving DecidableEq, Repr

/-- `doc[self.text_key]` for the chunk indexer (`text_key="chunk"`). -/
def chunkTextOf (d : IndexDocument) : String := d.chunk.getD ""

def chunkMetaOf (d : IndexDocument) : ChunkMeta :=
  ⟨d.tags, d.page_id, d.pdf_id, d.chunk.getD ""⟩

/-- Store state after indexing `c1docs` once into an empty store. -/
def c1run1 : List (VectorRecord Nat ChunkMeta) :=
  upsertAll [] (indexDocuments chunkTextOf chunkMetaOf String.length uuidStream
    c1docs 100 0)

/-- Store state after indexing the identical `c1docs` a second time (the
fresh-id stream continues where the first run left off). -/
def c1run2 : List (VectorRecord Nat ChunkMeta) :=
  upsertAll c1run1 (indexDocuments chunkTextOf chunkMetaOf String.length
    uuidStream c1docs 100 c1docs.length)

/-- C1 (code bug): `DocumentProcessor.process_page` computes the
content-hash id `"c-7-…"`, but `PineconeIndexer.index_documents` discards it
and upserts under `str(uuid.uuid4())` — so indexing the same artifact set
twice stores two records (identical vector and metadata, distinct fresh
ids) instead of overwriting one, and the stored ids are never the content
ids.  This evaluates the embedded code on that failing input. -/
theorem indexing_twice_duplicates_under_fresh_ids :
    c1run1.length = 1 ∧ c1run2.length = 2
    ∧ c1run1.map (fun r => r.id) = ["uuid-0"]
    ∧ c1run2.map (fun r => r.id) = ["uuid-0", "uuid-1"]
    ∧ c1run2 ≠ c1run1
    ∧ ¬ (c1run2.map (fun r => r.metadata)).Nodup
    ∧ (c1run2.map (fun r => r.id)).Nodup
    ∧ c1docs.map (fun d => d.id) = ["c-7-C1-0123456789abc"]
    ∧ c1run1.map (fun r => r.id) ≠ c1docs.map (fun d => d.id) := by
  have h1 := indexDocuments_eq_single chunkTextOf chunkMetaOf String.length
    uuidStream 100 (by decide) c1docs.length c1docs le_rfl 0
  have h2 := indexDocuments_eq_single chunkTextOf chunkMetaOf String.length
    uuidStream 100 (by decide) c1docs.length c1docs le_rfl c1docs.length
  unfold c1run2
  unfold c1run1
  rw [h1, h2]
  decide

/-! ## Query expander failure mode (C7)
(`src/app/core/prompting.py`, `PromptRunner.generate`;
`src/app/hierarchical_rag/modules/retreiver.py`, `PromptBasedExpander`) -/

/-- The Python value `expand` can produce, distinguishing its runtime type:
a plain list of strings, a parsed pydantic `TagList` object, or the literal
empty dict `{}`. -/
inductive ExpandVal where
  | strList (xs : List String)
  | tagList (tags : List String)
  | dict
  deriving DecidableEq, Repr

/-- `PromptRunner.generate`: returns `response.output_parsed` — for the
query-expansion template, a parsed `TagList` — when `client.responses.parse`
succeeds, and the literal `{}` when it raises (the `except` branch prints
and `return {}`). -/
def generateResult (r : Except String (List String)) : ExpandVal :=
  match r with
  | Except.ok ts => ExpandVal.tagList ts
  | Except.error _ => ExpandVal.dict

/-- `PromptBasedExpander.expand` = `PromptService.questions_from_query` =
`PromptProcessor.process` = `PromptRunner.generate`: the generated value is
passed through unchanged.  `llm query n` stands for the
`client.responses.parse` call — `ok` with the parsed string list, `error`
when the model call fails or its output is unparseable. -/
def expandResult (llm : String → Nat → Except String (List String))
    (query : String) (n : Nat) : ExpandVal :=
  generateResult (llm query n)

/-- How many items `for q in v` yields: a list its elements, `{}` zero keys
(a pydantic model yields one (field, value) pair per field). -/
def iterLen : ExpandVal → Nat
  | ExpandVal.strList xs => xs.length
  | ExpandVal.tagList _ => 1
  | ExpandVal.dict => 0

/-- C7 counterexample: on a failing model call the expander returns the
empty dict `{}`, which is not an empty list of strings. -/
theorem expander_failure_returns_dict_not_list :
    expandResult (fun _ _ => Except.error "GenerationError") "X" 15
        ≠ ExpandVal.strList []
    ∧ expandResult (fun _ _ => Except.error "GenerationError") "X" 15
        = ExpandVal.dict := by
  exact ⟨by decide, rfl⟩

/-- C7 amended: when the model call fails or its output is unparseable, the
expander returns — it does not raise, being a total function of the call's
outcome — the empty dict `{}`: a container of zero items, though a dict
rather than an empty list of strings. -/
theorem expander_failure_empty_dict_no_raise
    (llm : String → Nat → Except String (List String)) (query : String)
    (n : Nat) (e : String) (h : llm query n = Except.error e) :
    expandResult llm query n = ExpandVal.dict
    ∧ iterLen (expandResult llm query n) = 0 := by
  rw [expandResult, h]
  exact ⟨rfl, rfl⟩

theorem expander_failure_empty_dict_no_raise_witness :
    (fun (_ : String) (_ : Nat) =>
        (Except.error "boom" : Except String (List String))) "X" 15
      = Except.error "boom"
    ∧ (expandResult (fun _ _ => Except.error "boom") "X" 15 = ExpandVal.dict
      ∧ iterLen (expandResult (fun _ _ => Except.error "boom") "X" 15) = 0) :=
  ⟨rfl, expander_failure_empty_dict_no_raise _ "X" 15 "boom" rfl⟩

/-! ## Exception flow through retrieval (C8)

`PineconeRetriever.retrieve` computes
`embedding = self.embedder.embed([query])[0]` OUTSIDE its `try` block; only
the `index.query` call is guarded (`except` logs and returns `[]`).
Exceptions are modelled with `Except`: `embed q` is the embedding call for
query `q`, `qfn v k f` the vector-store query.  The retriever methods have no
handlers of their own, so an exception escaping `retrieve` propagates out of
`get_context_chunks` — modelled by threading `Except` through the stages. -/

def retrieveE (embed : String → Except String V)
    (qfn : V → Nat → Option Int → Except String (List RMatch))
    (q : String) (k : Nat) (f : Option Int) : Except String (List RMatch) :=
  match embed q with
  | Except.error e => Except.error e
  | Except.ok v =>
    match qfn v k f with
    | Except.error _ => Except.ok []
    | Except.ok ms => Except.ok ms

/-- The `except` branch of `retrieve`: a failed `index.query` is logged and
yields `[]` — that query contributes zero matches. -/
def absorbQueryError (r : Except String (List RMatch)) : List RMatch :=
  match r with
  | Except.ok ms => ms
  | Except.error _ => []

/-- `_get_page_ids` with the underlying retrieve call's exceptions
threaded. -/
def getPageIdsE (qembed : String → Except String V)
    (qfn : V → Nat → Option Int → Except String (List RMatch))
    (q : String) : Except String (List Int) := do
  let ms ← retrieveE qembed qfn q 5 none
  pure (getPageIds ms)

/-- `_get_chunks` with exceptions threaded: any exception escaping a chunk
query aborts the loops. -/
def getChunksE (cembed : String → Except String V)
    (cfn : V → Nat → Option Int → Except String (List RMatch))
    (qtp : List (String × List Int)) (cpp : Nat) :
    Except String (List RMatch) := do
  let nested ← qtp.mapM fun qp => do
    let per ← qp.2.mapM fun p => do
      let ms ← retrieveE cembed cfn qp.1 cpp (some p)
      pure (ms.map fun m => { m with question := some qp.1 })
    pure per.flatten
  pure nested.flatten

/-- `get_context_chunks` with exceptions threaded: an exception raised by
any per-question retrieve call (e.g. its embedding) propagates out of the
dict comprehension and aborts the whole call. -/
def getContextChunksE (expand : String → List String)
    (qembed : String → Except String V)
    (qfn : V → Nat → Option Int → Except String (List RMatch))
    (cembed : String → Except String V)
    (cfn : V → Nat → Option Int → Except String (List RMatch))
    (query : String) (topN : Nat) : Except String (List RetrievedChunk) := do
  let questions := (expand query).eraseDups
  let qtp ← questions.mapM fun q => do
    let pids ← getPageIdsE qembed qfn q
    pure (q, pids)
  let allChunks ← getChunksE cembed cfn qtp 3
  pure ((rerank allChunks topN).map projectMatch)

theorem exceptBind_ok {α β : Type} (a : α) (f : α → Except String β) :
    (Except.ok a >>= f) = f a := rfl

theorem exceptMapM_ok {α β : Type} (f : α → Except String β) (g : α → β)
    (hf : ∀ a, f a = Except.ok (g a)) :
    ∀ l : List α, l.mapM f = Except.ok (l.map g) := by
  intro l
  induction l with
  | nil => rfl
  | cons x t ih => rw [List.mapM_cons, hf, ih]; rfl

theorem retrieveE_ok_embed (emb : String → V)
    (qfn : V → Nat → Option Int → Except String (List RMatch))
    (q : String) (k : Nat) (f : Option Int) :
    retrieveE (fun q => Except.ok (emb q)) qfn q k f
      = Except.ok (absorbQueryError (qfn (emb q) k f)) := by
  cases h : qfn (emb q) k f <;> simp [retrieveE, absorbQueryError, h]

theorem getChunks_eq_flatten (cret : String → Nat → Option Int → List RMatch)
    (qtp : List (String × List Int)) (cpp : Nat) :
    getChunks cret qtp cpp
      = (qtp.map fun qp =>
          ((qp.2.map fun p => (cret qp.1 cpp (some p)).map
            fun m => { m with question := some qp.1 }).flatten)).flatten := by
  simp [getChunks, List.flatMap]

/-- C8 amended: when every embedding call succeeds, retrieval always returns
a result: each sub-question whose vector-store `index.query` fails
contributes zero matches (absorbed inside `retrieve`) and the remaining
sub-questions proceed — the run equals the pure pipeline with failed queries
replaced by `[]`.  (The unamended claim fails for embedding faults: see the
counterexample.) -/
theorem retrieval_absorbs_query_errors {V : Type} (expand : String → List String)
    (embq embc : String → V)
    (qfn cfn : V → Nat → Option Int → Except String (List RMatch))
    (query : String) (topN : Nat) :
    getContextChunksE expand (fun q => Except.ok (embq q)) qfn
        (fun q => Except.ok (embc q)) cfn query topN
      = Except.ok (getContextChunks expand
          (fun q k f => absorbQueryError (qfn (embq q) k f))
          (fun q k f => absorbQueryError (cfn (embc q) k f)) query topN) := by
  rw [getContextChunksE]
  have h1 : ∀ q : String,
      (do
        let pids ← getPageIdsE (fun q => Except.ok (embq q)) qfn q
        pure (q, pids) : Except String (String × List Int))
      = Except.ok (q, getPageIds (absorbQueryError (qfn (embq q) 5 none))) := by
    intro q
    rw [show getPageIdsE (fun q => Except.ok (embq q)) qfn q
        = Except.ok (getPageIds (absorbQueryError (qfn (embq q) 5 none))) by
      rw [getPageIdsE, retrieveE_ok_embed]; rfl]
    rfl
  rw [exceptMapM_ok _ _ h1]
  simp only [exceptBind_ok]
  have h2 : getChunksE (fun q => Except.ok (embc q)) cfn
      ((expand query).eraseDups.map fun q =>
        (q, getPageIds (absorbQueryError (qfn (embq q) 5 none)))) 3
      = Except.ok (getChunks
          (fun q k f => absorbQueryError (cfn (embc q) k f))
          ((expand query).eraseDups.map fun q =>
            (q, getPageIds (absorbQueryError (qfn (embq q) 5 none)))) 3) := by
    rw [getChunksE]
    have h3 : ∀ qp : String × List Int,
        (do
          let per ← qp.2.mapM fun p => do
            let ms ← retrieveE (fun q => Except.ok (embc q)) cfn qp.1 3 (some p)
            pure (ms.map fun m => { m with question := some qp.1 })
          pure per.flatten : Except String (List RMatch))
        = Except.ok ((qp.2.map fun p =>
            (absorbQueryError (cfn (embc qp.1) 3 (some p))).map
              fun m => { m with question := some qp.1 }).flatten) := by
      intro qp
      rw [exceptMapM_ok _ _ (fun p => by rw [retrieveE_ok_embed]; rfl)]
      rfl
    rw [exceptMapM_ok _ _ h3]
    rw [getChunks_eq_flatten]
    rfl
  rw [h2]
  simp only [exceptBind_ok]
  rfl


/-- C8 counterexample: a sub-question whose *embedding* call raises aborts
the whole retrieval — the exception propagates instead of the sub-question
contributing zero matches, because the embed call sits outside the `try`
block in `PineconeRetriever.retrieve`. -/
theorem retrieval_aborts_on_embedding_error :
    getContextChunksE (fun _ => ["Q1"])
      (fun _ => (Except.error "EmbeddingError" : Except String Int))
      (fun _ _ _ => Except.ok [])
      (fun _ => Except.ok (0 : Int))
      (fun _ _ _ => Except.ok [])
      "X" 15 = Except.error "EmbeddingError" := rfl

end MedDoc
